import Mathlib

/-!
# Verification of the `fjoin` path-sanitizing join utility

This file embeds the `fjoin.Join` function of the `cobraman` repository
(`internal/tests/fjoin/fjoin.go`) together with the library functions it
calls, and proves (or refutes) the specification claims about it.

Strings are modelled as `List Char` in the core algorithms; the public
`fjoin.Join` is stated on Lean `String`s (a `String` wraps its `data :
List Char`).  Go's `(string, error)` return value is modelled as
`String × Option String` (`none` = nil error), and the panic that Go
raises when `parts[0]` indexes an empty slice is modelled by an outer
`Option` (`none` = panic).
-/

/-- The set of characters that are unsafe in a filesystem component name.

Modelled from the spec: "characters not permitted in a filesystem
component name on the strictest common target platform — at minimum the
input test corpus establishes that characters such as `<` and `>` are
unsafe".  We use the standard Windows-reserved set `< > : " / \ | ? *`
together with the ASCII control characters. -/
def unsafeChar (c : Char) : Bool :=
  c = '<' || c = '>' || c = ':' || c = '"' || c = '/' || c = '\\' ||
  c = '|' || c = '?' || c = '*' || c.toNat < 0x20

/-- `strings.Split(s, "/")` from the Go standard library, on `List Char`:
splits at every `'/'`; the result always has at least one (possibly
empty) piece and has `n+1` pieces for `n` separators. -/
def splitSlash : List Char → List (List Char)
  | [] => [[]]
  | c :: rest =>
    match splitSlash rest with
    | [] => [[]]
    | g :: gs => if c = '/' then [] :: g :: gs else (c :: g) :: gs

/-- Joining components with single `'/'` separators (the concatenation
step of `filepath.Join` / the inverse of `splitSlash`). -/
def joinSlash : List (List Char) → List Char
  | [] => []
  | [g] => g
  | g :: gs => g ++ '/' :: joinSlash gs

/-- Drop a leading run of unsafe characters. -/
def stripLead (s : List Char) : List Char := s.dropWhile unsafeChar

/-- Drop a trailing run of unsafe characters. -/
def stripTrail (s : List Char) : List Char :=
  (s.reverse.dropWhile unsafeChar).reverse

/-- Replace every maximal run of unsafe characters by the replacement
string `r`; the flag records whether the previous character was part of
an unsafe run (whose replacement has already been emitted). -/
def replRunsAux (r : List Char) : Bool → List Char → List Char
  | _, [] => []
  | inRun, c :: rest =>
    if unsafeChar c then
      if inRun then replRunsAux r true rest
      else r ++ replRunsAux r true rest
    else c :: replRunsAux r false rest

/-- Replace every maximal run of unsafe characters by the replacement
string `r`. -/
def replRunsWith (r : List Char) (s : List Char) : List Char :=
  replRunsAux r false s

/-- Modelled from the spec: the per-atom sanitizer ("filenamify", §4.1
step 3), whose library source is not part of the repository.  Each
maximal run of unsafe characters strictly inside the atom is replaced by
the replacement string; runs at the very start or end are removed; an
atom consisting only of unsafe characters becomes the replacement
itself. -/
def sanitizeWith (r : List Char) (s : List Char) : List Char :=
  if s ≠ [] ∧ s.all unsafeChar then r
  else replRunsWith r (stripTrail (stripLead s))

namespace filenamify

/-- Modelled from the spec: `filenamify.Filenamify` fails only with a
`SanitizationError` that is "implementation-dependent" (§7); the model
makes it reject a replacement string that itself contains unsafe
characters (the reference library's only failure mode) and otherwise
sanitize the atom. -/
def Filenamify (str : List Char) (repl : List Char) :
    Except String (List Char) :=
  if repl.any unsafeChar then
    .error "Replacement string cannot contain reserved filename characters"
  else
    .ok (sanitizeWith repl str)

end filenamify

namespace filepath

/-- `filepath.IsAbs` (unix): the path begins with a separator. -/
def IsAbsL (s : List Char) : Bool :=
  match s with
  | [] => false
  | c :: _ => c = '/'

/-- One step of `filepath.Clean`'s component processing: empty and `"."`
components are dropped, `".."` pops a normal component (or is kept at
the front of a relative path, or dropped at the root of a rooted path),
anything else is pushed.  The stack holds components most-recent
first. -/
def cleanStep (rooted : Bool) (stack : List (List Char)) (c : List Char) :
    List (List Char) :=
  if c = [] || c = ['.'] then stack
  else if c = ['.', '.'] then
    if rooted then stack.tail
    else
      match stack with
      | [] => [['.', '.']]
      | top :: rest => if top = ['.', '.'] then c :: stack else rest
  else c :: stack

/-- `filepath.Clean` (unix), as the standard stack-based lexical
cleaning algorithm: split on separators, process components, rejoin;
empty input cleans to `"."`, a rooted result keeps its leading
separator, and an empty relative result becomes `"."`. -/
def cleanL (l : List Char) : List Char :=
  if l = [] then ['.']
  else
    let rooted := IsAbsL l
    let stack := (splitSlash l).foldl (cleanStep rooted) []
    let out := joinSlash stack.reverse
    if rooted then '/' :: out
    else if out = [] then ['.'] else out

/-- `filepath.Join` (unix): drop leading empty elements, join the rest
(including interior empties) with separators, and `Clean` the result;
all-empty input yields the empty string. -/
def JoinL (elems : List (List Char)) : List Char :=
  match elems.dropWhile (· = []) with
  | [] => []
  | rest => cleanL (joinSlash rest)

end filepath

namespace fjoin

/-- The inner loop of `fjoin.Join`: sanitize the atoms of one cleaned
segment, skipping empty atoms, aborting on the first sanitizer error. -/
def sanitizeElems (repl : List Char) : List (List Char) →
    Except String (List (List Char))
  | [] => .ok []
  | e :: rest =>
    if e = [] then sanitizeElems repl rest
    else
      match filenamify.Filenamify e repl with
      | .error err => .error err
      | .ok fixed =>
        match sanitizeElems repl rest with
        | .error err => .error err
        | .ok xs => .ok (fixed :: xs)

/-- The outer loop of `fjoin.Join`: for each part, skip it if empty,
otherwise `Clean` it, split it on separators and sanitize its atoms,
accumulating the full `namified` list. -/
def buildNamified (repl : List Char) : List (List Char) →
    Except String (List (List Char))
  | [] => .ok []
  | p :: rest =>
    if p = [] then buildNamified repl rest
    else
      match sanitizeElems repl (splitSlash (filepath.cleanL p)) with
      | .error err => .error err
      | .ok xs =>
        match buildNamified repl rest with
        | .error err => .error err
        | .ok ys => .ok (xs ++ ys)

/-- `fjoin.Join` on `List Char`, generalized over the replacement string
(the Go source fixes `opts := filenamify.Options{Replacement: "_"}`).
The result models Go's `(string, error)` pair; the outer `Option` is
`none` exactly when the Go code panics (it indexes `parts[0]`
unconditionally, so the empty argument list panics). -/
def JoinL (repl : List Char) (parts : List (List Char)) :
    Option (List Char × Option String) :=
  match parts with
  | [] => none
  | p0 :: _ =>
    some (match buildNamified repl parts with
      | .error err => ([], some err)
      | .ok namified =>
        let joined := filepath.JoinL namified
        (if filepath.IsAbsL p0 then '/' :: joined else joined, none))

/-- `fjoin.Join` with an explicit replacement string, on `String`s. -/
def JoinWith (repl : String) (parts : List String) :
    Option (String × Option String) :=
  (JoinL repl.data (parts.map String.data)).map
    (fun p => (⟨p.1⟩, p.2))

/-- `fjoin.Join`: the source function, with its fixed replacement `"_"`. -/
def Join (parts : List String) : Option (String × Option String) :=
  JoinWith "_" parts

end fjoin

/-- The first character exists and is safe. -/
def headSafeB (s : List Char) : Bool :=
  match s with
  | [] => false
  | c :: _ => ! unsafeChar c

/-- The last character exists and is safe. -/
def lastSafeB (s : List Char) : Bool := headSafeB s.reverse

/-- Whether a character list contains two adjacent separators. -/
def hasDoubleSlash : List Char → Bool
  | [] => false
  | [_] => false
  | a :: b :: rest => (a = '/' && b = '/') || hasDoubleSlash (b :: rest)

/-- A well-formed output atom: non-empty and made of safe characters
only (in particular it contains no separator). -/
def goodAtom (a : List Char) : Prop :=
  a ≠ [] ∧ ∀ c ∈ a, unsafeChar c = false

/-- A component of a cleaned path that is not a `".."` of the leading
run: non-empty, all-safe, and neither `"."` nor `".."`. -/
def strictComp (x : List Char) : Prop :=
  x ≠ [] ∧ (∀ c ∈ x, unsafeChar c = false) ∧ x ≠ ['.'] ∧ x ≠ ['.', '.']

/-- The shape of `filepath.Clean`'s output on a non-rooted path whose
atoms are well-formed: `"."`, or a run of `".."` components followed by
strict components. -/
def cleanedShape (q : List Char) : Prop :=
  q = ['.'] ∨
  ∃ k norms, (∀ x ∈ norms, strictComp x) ∧
    (List.replicate k ['.', '.'] ++ norms ≠ []) ∧
    q = joinSlash (List.replicate k ['.', '.'] ++ norms)

/-- Invariant of `filepath.cleanStep`'s stack: a block of strict
components (most recent first) on top of a run of `".."` components,
with no `".."` run at all for a rooted path. -/
def stackOK (rooted : Bool) (stack : List (List Char)) : Prop :=
  ∃ norms k, stack = norms ++ List.replicate k ['.', '.'] ∧
    (∀ x ∈ norms, strictComp x) ∧ (rooted = true → k = 0)

/-- The path begins with `"/."` (which covers `"/.."` as well). -/
def startsSlashDot (l : List Char) : Bool :=
  match l with
  | '/' :: '.' :: _ => true
  | _ => false

-- sanity checks against the repository's test corpus
example : fjoin.Join ["a"] = some ("a", none) := by decide
example : fjoin.Join ["a/b/"] = some ("a/b", none) := by decide
example : fjoin.Join ["a", "b"] = some ("a/b", none) := by decide
example : fjoin.Join ["a b"] = some ("a b", none) := by decide
example : fjoin.Join ["a<b"] = some ("a_b", none) := by decide
example : fjoin.Join ["ab<cd"] = some ("ab_cd", none) := by decide
example : fjoin.Join ["<"] = some ("_", none) := by decide
example : fjoin.Join ["</b"] = some ("_/b", none) := by decide
example : fjoin.Join ["<", ">", "/</"] = some ("_/_/_", none) := by decide
example : fjoin.Join ["/a"] = some ("/a", none) := by decide
example : fjoin.Join ["/a/"] = some ("/a", none) := by decide
example : fjoin.Join ["/a/b/"] = some ("/a/b", none) := by decide
example : fjoin.Join ["//a/", "//b/"] = some ("/a/b", none) := by decide

/-! ## Character-level facts -/

theorem underscore_safe : unsafeChar '_' = false := by decide

theorem dot_safe : unsafeChar '.' = false := by decide

theorem unsafeChar_slash : unsafeChar '/' = true := by decide

theorem safe_ne_slash {c : Char} (h : unsafeChar c = false) : c ≠ '/' := by
  intro hc; subst hc; exact absurd h (by decide)

/-! ## headSafeB / lastSafeB -/

theorem headSafeB_cons {c : Char} {s : List Char} :
    headSafeB (c :: s) = ! unsafeChar c := rfl

theorem headSafeB_nil : headSafeB [] = false := rfl

theorem lastSafeB_cons_of_ne_nil {a : Char} {s : List Char} (h : s ≠ []) :
    lastSafeB (a :: s) = lastSafeB s := by
  unfold lastSafeB
  rw [List.reverse_cons]
  cases hrev : s.reverse with
  | nil => exact absurd (List.reverse_eq_nil_iff.mp hrev) h
  | cons x xs => simp [headSafeB]

theorem lastSafeB_singleton {a : Char} : lastSafeB [a] = ! unsafeChar a := rfl

theorem exists_safe_of_lastSafeB {s : List Char} (h : lastSafeB s = true) :
    ∃ x ∈ s, unsafeChar x = false := by
  unfold lastSafeB at h
  cases hrev : s.reverse with
  | nil => rw [hrev] at h; simp [headSafeB] at h
  | cons c t =>
    rw [hrev] at h
    refine ⟨c, ?_, by simpa [headSafeB] using h⟩
    have : c ∈ s.reverse := by rw [hrev]; exact List.mem_cons_self c t
    exact List.mem_reverse.mp this

theorem exists_safe_of_headSafeB {s : List Char} (h : headSafeB s = true) :
    ∃ x ∈ s, unsafeChar x = false := by
  cases s with
  | nil => simp [headSafeB] at h
  | cons c t => exact ⟨c, List.mem_cons_self c t, by simpa [headSafeB] using h⟩

/-! ## stripLead / stripTrail -/

theorem stripLead_of_headSafeB {s : List Char} (h : headSafeB s = true) :
    stripLead s = s := by
  cases s with
  | nil => rfl
  | cons c t =>
    have : unsafeChar c = false := by simpa [headSafeB] using h
    simp [stripLead, List.dropWhile_cons, this]

theorem stripLead_ne_nil_of_exists {s : List Char}
    (h : ∃ x ∈ s, unsafeChar x = false) : stripLead s ≠ [] := by
  intro hnil
  obtain ⟨x, hx, hsafe⟩ := h
  have := (List.dropWhile_eq_nil_iff).mp hnil x hx
  rw [hsafe] at this; exact Bool.false_ne_true this

theorem stripLead_append {s u : List Char} (h : stripLead s ≠ []) :
    stripLead (s ++ u) = stripLead s ++ u := by
  unfold stripLead at *
  rw [List.dropWhile_append]
  simp [List.isEmpty_iff, h]

theorem headSafeB_stripLead {s : List Char} (h : stripLead s ≠ []) :
    headSafeB (stripLead s) = true := by
  induction s with
  | nil => simp [stripLead] at h
  | cons c t ih =>
    by_cases hc : unsafeChar c
    · have he : stripLead (c :: t) = stripLead t := by
        simp [stripLead, List.dropWhile_cons, hc]
      rw [he] at h ⊢; exact ih h
    · have hc' : unsafeChar c = false := by simpa using hc
      simp [stripLead, List.dropWhile_cons, hc', headSafeB]

theorem lastSafeB_stripLead {s : List Char} (h : lastSafeB s = true) :
    lastSafeB (stripLead s) = true := by
  induction s with
  | nil => simp [lastSafeB, headSafeB] at h
  | cons c t ih =>
    cases t with
    | nil =>
      have hc : unsafeChar c = false := by
        simpa [lastSafeB_singleton] using h
      simp [stripLead, List.dropWhile_cons, hc, lastSafeB_singleton]
    | cons x xs =>
      have htne : (x :: xs) ≠ [] := by simp
      have h' : lastSafeB (x :: xs) = true := by
        rwa [lastSafeB_cons_of_ne_nil htne] at h
      by_cases hc : unsafeChar c
      · have he : stripLead (c :: x :: xs) = stripLead (x :: xs) := by
          simp [stripLead, List.dropWhile_cons, hc]
        rw [he]; exact ih h'
      · have hc' : unsafeChar c = false := by simpa using hc
        have he : stripLead (c :: x :: xs) = c :: x :: xs := by
          simp [stripLead, List.dropWhile_cons, hc']
        rw [he, lastSafeB_cons_of_ne_nil htne]; exact h'

theorem stripTrail_of_lastSafeB {s : List Char} (h : lastSafeB s = true) :
    stripTrail s = s := by
  unfold stripTrail
  have : s.reverse.dropWhile unsafeChar = s.reverse :=
    stripLead_of_headSafeB (s := s.reverse) h
  rw [this, List.reverse_reverse]

theorem stripTrail_append_unsafeRun {A u : List Char}
    (hu : ∀ x ∈ u, unsafeChar x = true) :
    stripTrail (A ++ u) = stripTrail A := by
  unfold stripTrail
  rw [List.reverse_append, List.dropWhile_append]
  have : u.reverse.dropWhile unsafeChar = [] :=
    List.dropWhile_eq_nil_iff.mpr (fun x hx => hu x (List.mem_reverse.mp hx))
  simp [this]

theorem stripTrail_ne_nil_of_exists {s : List Char}
    (h : ∃ x ∈ s, unsafeChar x = false) : stripTrail s ≠ [] := by
  unfold stripTrail
  obtain ⟨x, hx, hsafe⟩ := h
  have : s.reverse.dropWhile unsafeChar ≠ [] :=
    stripLead_ne_nil_of_exists ⟨x, List.mem_reverse.mpr hx, hsafe⟩
  simpa using this

theorem stripTrail_append_left {A t : List Char}
    (h : ∃ x ∈ t, unsafeChar x = false) :
    stripTrail (A ++ t) = A ++ stripTrail t := by
  unfold stripTrail
  rw [List.reverse_append, List.dropWhile_append]
  have hne : t.reverse.dropWhile unsafeChar ≠ [] :=
    stripLead_ne_nil_of_exists
      ⟨h.choose, List.mem_reverse.mpr h.choose_spec.1, h.choose_spec.2⟩
  rw [if_neg (by simpa [List.isEmpty_iff] using hne)]
  rw [List.reverse_append, List.reverse_reverse]

theorem headSafeB_stripTrail {t : List Char} (h : headSafeB t = true) :
    headSafeB (stripTrail t) = true := by
  unfold stripTrail
  have h1 : lastSafeB t.reverse = true := by
    unfold lastSafeB; rwa [List.reverse_reverse]
  have h2 : lastSafeB (t.reverse.dropWhile unsafeChar) = true :=
    lastSafeB_stripLead (s := t.reverse) h1
  exact h2

/-! ## replRunsAux -/

theorem replRunsAux_all_safe {r s : List Char} (b : Bool)
    (h : ∀ c ∈ s, unsafeChar c = false) : replRunsAux r b s = s := by
  induction s generalizing b with
  | nil => rfl
  | cons c t ih =>
    have hc := h c (List.mem_cons_self c t)
    simp [replRunsAux, hc, ih false (fun x hx => h x (List.mem_cons_of_mem c hx))]

theorem replRunsAux_mem {r s : List Char} {b : Bool} {c : Char}
    (h : c ∈ replRunsAux r b s) : c ∈ r ∨ (c ∈ s ∧ unsafeChar c = false) := by
  induction s generalizing b with
  | nil => simp [replRunsAux] at h
  | cons x t ih =>
    by_cases hx : unsafeChar x
    · cases b with
      | true =>
        have h' : c ∈ replRunsAux r true t := by simpa [replRunsAux, hx] using h
        rcases ih h' with h1 | ⟨h2, h3⟩
        · exact Or.inl h1
        · exact Or.inr ⟨List.mem_cons_of_mem x h2, h3⟩
      | false =>
        have h' : c ∈ r ++ replRunsAux r true t := by
          simpa [replRunsAux, hx] using h
        rcases List.mem_append.mp h' with h1 | h2
        · exact Or.inl h1
        · rcases ih h2 with h3 | ⟨h4, h5⟩
          · exact Or.inl h3
          · exact Or.inr ⟨List.mem_cons_of_mem x h4, h5⟩
    · have hx' : unsafeChar x = false := by simpa using hx
      have h' : c ∈ x :: replRunsAux r false t := by
        simpa [replRunsAux, hx'] using h
      rcases List.mem_cons.mp h' with h1 | h2
      · exact Or.inr ⟨h1 ▸ List.mem_cons_self x t, h1 ▸ hx'⟩
      · rcases ih h2 with h3 | ⟨h4, h5⟩
        · exact Or.inl h3
        · exact Or.inr ⟨List.mem_cons_of_mem x h4, h5⟩

theorem replRunsAux_cons_unsafeChar {r l : List Char} {a : Char} {b : Bool}
    (ha : unsafeChar a = true) :
    replRunsAux r b (a :: l) =
      if b then replRunsAux r true l else r ++ replRunsAux r true l := by
  cases b <;> simp [replRunsAux, ha]

theorem replRunsAux_cons_safe {r l : List Char} {a : Char} {b : Bool}
    (ha : unsafeChar a = false) :
    replRunsAux r b (a :: l) = a :: replRunsAux r false l := by
  cases b <;> simp [replRunsAux, ha]

theorem replRunsAux_append {r : List Char} :
    ∀ (A : List Char) (b : Bool) (C : List Char), lastSafeB A = true →
      replRunsAux r b (A ++ C) = replRunsAux r b A ++ replRunsAux r false C := by
  intro A
  induction A with
  | nil => intro b C h; simp [lastSafeB, headSafeB] at h
  | cons a A' ih =>
    intro b C h
    cases A' with
    | nil =>
      have ha : unsafeChar a = false := by simpa [lastSafeB_singleton] using h
      rw [List.singleton_append, replRunsAux_cons_safe ha, replRunsAux_cons_safe ha]
      rfl
    | cons x xs =>
      have htne : (x :: xs) ≠ [] := by simp
      have h' : lastSafeB (x :: xs) = true := by
        rwa [lastSafeB_cons_of_ne_nil htne] at h
      by_cases ha : unsafeChar a
      · rw [List.cons_append, replRunsAux_cons_unsafeChar ha, replRunsAux_cons_unsafeChar ha]
        cases b with
        | true => exact ih true C h'
        | false =>
          show r ++ replRunsAux r true ((x :: xs) ++ C) =
            (r ++ replRunsAux r true (x :: xs)) ++ replRunsAux r false C
          rw [ih true C h', List.append_assoc]
      · have ha' : unsafeChar a = false := by simpa using ha
        rw [List.cons_append, replRunsAux_cons_safe ha', replRunsAux_cons_safe ha']
        show a :: replRunsAux r false ((x :: xs) ++ C) =
          a :: (replRunsAux r false (x :: xs) ++ replRunsAux r false C)
        rw [ih false C h']

theorem replRunsAux_true_of_headSafe {r C : List Char}
    (h : headSafeB C = true) : replRunsAux r true C = replRunsAux r false C := by
  cases C with
  | nil => rfl
  | cons c t =>
    have hc : unsafeChar c = false := by simpa [headSafeB] using h
    simp [replRunsAux, hc]

theorem replRunsAux_skip_run {r : List Char} :
    ∀ (u C : List Char), (∀ x ∈ u, unsafeChar x = true) →
      replRunsAux r true (u ++ C) = replRunsAux r true C := by
  intro u
  induction u with
  | nil => intro C _; rfl
  | cons a u' ih =>
    intro C h
    have ha := h a (List.mem_cons_self a u')
    simp [replRunsAux, ha, ih C (fun x hx => h x (List.mem_cons_of_mem a hx))]

theorem replRunsAux_run {r u C : List Char} (hu : u ≠ [])
    (hall : ∀ x ∈ u, unsafeChar x = true) (hC : headSafeB C = true) :
    replRunsAux r false (u ++ C) = r ++ replRunsAux r false C := by
  cases u with
  | nil => exact absurd rfl hu
  | cons a u' =>
    have ha := hall a (List.mem_cons_self a u')
    have h1 : replRunsAux r true (u' ++ C) = replRunsAux r true C :=
      replRunsAux_skip_run u' C (fun x hx => hall x (List.mem_cons_of_mem a hx))
    simp [replRunsAux, ha, h1, replRunsAux_true_of_headSafe hC]

/-! ## sanitizeWith -/

theorem sanitizeWith_all_safe {r s : List Char}
    (h : ∀ c ∈ s, unsafeChar c = false) : sanitizeWith r s = s := by
  unfold sanitizeWith
  cases s with
  | nil => rfl
  | cons c t =>
    have hc := h c (List.mem_cons_self c t)
    have hall : (c :: t).all unsafeChar = false := by
      cases hall0 : (c :: t).all unsafeChar with
      | false => rfl
      | true =>
        have := List.all_eq_true.mp hall0 c (List.mem_cons_self c t)
        rw [hc] at this; exact absurd this Bool.false_ne_true
    rw [if_neg (by simp [hall])]
    have hhead : headSafeB (c :: t) = true := by simp [headSafeB, hc]
    have hlast : lastSafeB (c :: t) = true := by
      unfold lastSafeB
      cases hrev : (c :: t).reverse with
      | nil => exact absurd (List.reverse_eq_nil_iff.mp hrev) (by simp)
      | cons x xs =>
        have hx : x ∈ c :: t := by
          have : x ∈ (c :: t).reverse := by rw [hrev]; exact List.mem_cons_self x xs
          exact List.mem_reverse.mp this
        simp [headSafeB, h x hx]
    rw [stripLead_of_headSafeB hhead, stripTrail_of_lastSafeB hlast]
    exact replRunsAux_all_safe false h

theorem sanitizeWith_mem {r s : List Char} {c : Char}
    (h : c ∈ sanitizeWith r s) : c ∈ r ∨ unsafeChar c = false := by
  unfold sanitizeWith at h
  by_cases hcond : s ≠ [] ∧ s.all unsafeChar
  · rw [if_pos hcond] at h; exact Or.inl h
  · rw [if_neg hcond] at h
    rcases replRunsAux_mem h with h1 | ⟨_, h3⟩
    · exact Or.inl h1
    · exact Or.inr h3

theorem sanitizeWith_ne_nil {r s : List Char} (hr : r ≠ []) (hs : s ≠ []) :
    sanitizeWith r s ≠ [] := by
  unfold sanitizeWith
  by_cases hcond : s ≠ [] ∧ s.all unsafeChar
  · rw [if_pos hcond]; exact hr
  · rw [if_neg hcond]
    have hex : ∃ x ∈ s, unsafeChar x = false := by
      rcases not_and_or.mp hcond with h1 | h2
      · exact absurd hs (by simpa using h1)
      · have hno : ¬ ∀ x ∈ s, unsafeChar x = true := by
          intro hall; exact h2 (List.all_eq_true.mpr hall)
        push_neg at hno
        obtain ⟨x, hx, hx2⟩ := hno
        exact ⟨x, hx, by simpa using hx2⟩
    have h1 : stripLead s ≠ [] := stripLead_ne_nil_of_exists hex
    have h2 : headSafeB (stripLead s) = true := headSafeB_stripLead h1
    have h3 : headSafeB (stripTrail (stripLead s)) = true := headSafeB_stripTrail h2
    cases hst : stripTrail (stripLead s) with
    | nil => rw [hst] at h3; simp [headSafeB] at h3
    | cons x xs =>
      have hx : unsafeChar x = false := by
        rw [hst] at h3; simpa [headSafeB] using h3
      simp [replRunsWith, replRunsAux, hx]

/-! ## The three sanitization equations behind claim C1 -/

theorem not_all_unsafe_of_safe_mem {s : List Char}
    (h : ∃ x ∈ s, unsafeChar x = false) : ¬(s ≠ [] ∧ s.all unsafeChar) := by
  rintro ⟨-, hall⟩
  obtain ⟨x, hx, hsafe⟩ := h
  have := List.all_eq_true.mp hall x hx
  rw [hsafe] at this; exact Bool.false_ne_true this

theorem sanitizeWith_edge_lead {r u t : List Char} (hu : u ≠ [])
    (hall : ∀ x ∈ u, unsafeChar x = true) (ht : headSafeB t = true) :
    sanitizeWith r (u ++ t) = sanitizeWith r t := by
  obtain ⟨c, hc, hcsafe⟩ := exists_safe_of_headSafeB ht
  have hmem : ∃ x ∈ u ++ t, unsafeChar x = false :=
    ⟨c, List.mem_append_right u hc, hcsafe⟩
  unfold sanitizeWith
  rw [if_neg (not_all_unsafe_of_safe_mem hmem),
    if_neg (not_all_unsafe_of_safe_mem ⟨c, hc, hcsafe⟩)]
  have h1 : stripLead (u ++ t) = stripLead t := by
    unfold stripLead
    rw [List.dropWhile_append]
    have : u.dropWhile unsafeChar = [] := List.dropWhile_eq_nil_iff.mpr hall
    simp [this]
  rw [h1, stripLead_of_headSafeB ht]

theorem sanitizeWith_edge_trail {r s u : List Char}
    (hall : ∀ x ∈ u, unsafeChar x = true) (hs : lastSafeB s = true) :
    sanitizeWith r (s ++ u) = sanitizeWith r s := by
  obtain ⟨c, hc, hcsafe⟩ := exists_safe_of_lastSafeB hs
  have hmem : ∃ x ∈ s ++ u, unsafeChar x = false :=
    ⟨c, List.mem_append_left u hc, hcsafe⟩
  unfold sanitizeWith
  rw [if_neg (not_all_unsafe_of_safe_mem hmem),
    if_neg (not_all_unsafe_of_safe_mem ⟨c, hc, hcsafe⟩)]
  have h0 : stripLead s ≠ [] := stripLead_ne_nil_of_exists ⟨c, hc, hcsafe⟩
  rw [stripLead_append h0, stripTrail_append_unsafeRun hall]

theorem sanitizeWith_interior {r s u t : List Char} (hu : u ≠ [])
    (hall : ∀ x ∈ u, unsafeChar x = true)
    (hs : lastSafeB s = true) (ht : headSafeB t = true) :
    sanitizeWith r (s ++ u ++ t) =
      sanitizeWith r s ++ r ++ sanitizeWith r t := by
  obtain ⟨c, hc, hcsafe⟩ := exists_safe_of_lastSafeB hs
  obtain ⟨d, hd, hdsafe⟩ := exists_safe_of_headSafeB ht
  have hmem : ∃ x ∈ s ++ u ++ t, unsafeChar x = false :=
    ⟨c, List.mem_append_left t (List.mem_append_left u hc), hcsafe⟩
  unfold sanitizeWith
  rw [if_neg (not_all_unsafe_of_safe_mem hmem),
    if_neg (not_all_unsafe_of_safe_mem ⟨c, hc, hcsafe⟩),
    if_neg (not_all_unsafe_of_safe_mem ⟨d, hd, hdsafe⟩)]
  have h0 : stripLead s ≠ [] := stripLead_ne_nil_of_exists ⟨c, hc, hcsafe⟩
  have hA : lastSafeB (stripLead s) = true := lastSafeB_stripLead hs
  have h1 : stripLead (s ++ u ++ t) = stripLead s ++ u ++ t := by
    rw [List.append_assoc, stripLead_append h0, ← List.append_assoc]
  rw [h1]
  have h2 : stripTrail (stripLead s ++ u ++ t) =
      stripLead s ++ u ++ stripTrail t :=
    stripTrail_append_left ⟨d, hd, hdsafe⟩
  rw [h2]
  have hB : headSafeB (stripTrail t) = true := headSafeB_stripTrail ht
  have h3 : stripTrail (stripLead s) = stripLead s := stripTrail_of_lastSafeB hA
  rw [stripLead_of_headSafeB ht, h3]
  unfold replRunsWith
  rw [List.append_assoc, replRunsAux_append (stripLead s) false (u ++ stripTrail t) hA,
    replRunsAux_run hu hall hB, ← List.append_assoc]

/-! ## splitSlash / joinSlash -/

theorem splitSlash_ne_nil (l : List Char) : splitSlash l ≠ [] := by
  cases l with
  | nil => simp [splitSlash]
  | cons c rest =>
    unfold splitSlash
    cases h : splitSlash rest with
    | nil => simp
    | cons g gs => by_cases hc : c = '/' <;> simp [hc]

theorem splitSlash_cons (c : Char) (rest : List Char) :
    splitSlash (c :: rest) =
      match splitSlash rest with
      | [] => [[]]
      | g :: gs => if c = '/' then [] :: g :: gs else (c :: g) :: gs := rfl

theorem mem_splitSlash_no_slash {l : List Char} :
    ∀ g ∈ splitSlash l, '/' ∉ g := by
  induction l with
  | nil => intro g hg; simp [splitSlash] at hg; simp [hg]
  | cons c rest ih =>
    cases h : splitSlash rest with
    | nil => exact absurd h (splitSlash_ne_nil rest)
    | cons g0 gs =>
      have hexp : splitSlash (c :: rest) =
          if c = '/' then [] :: g0 :: gs else (c :: g0) :: gs := by
        rw [splitSlash_cons, h]
      intro g hg
      rw [hexp] at hg
      by_cases hc : c = '/'
      · rw [if_pos hc] at hg
        rcases List.mem_cons.mp hg with h1 | h2
        · simp [h1]
        · exact ih g (by rw [h]; exact h2)
      · rw [if_neg hc] at hg
        rcases List.mem_cons.mp hg with h1 | h2
        · subst h1
          intro hmem
          rcases List.mem_cons.mp hmem with h3 | h4
          · exact hc h3.symm
          · exact ih g0 (by rw [h]; exact List.mem_cons_self g0 gs) h4
        · exact ih g (by rw [h]; exact List.mem_cons_of_mem g0 h2)

theorem splitSlash_of_no_slash {g : List Char} (h : '/' ∉ g) :
    splitSlash g = [g] := by
  induction g with
  | nil => rfl
  | cons c rest ih =>
    have hc : c ≠ '/' := fun hc => h (hc ▸ List.mem_cons_self c rest)
    have hrest : '/' ∉ rest := fun hm => h (List.mem_cons_of_mem c hm)
    rw [splitSlash_cons, ih hrest]
    simp [hc]

theorem splitSlash_append_slash {g : List Char} (h : '/' ∉ g) (l : List Char) :
    splitSlash (g ++ '/' :: l) = g :: splitSlash l := by
  induction g with
  | nil =>
    show splitSlash ('/' :: l) = [] :: splitSlash l
    rw [splitSlash_cons]
    cases hs : splitSlash l with
    | nil => exact absurd hs (splitSlash_ne_nil l)
    | cons g0 gs => simp
  | cons c rest ih =>
    have hc : c ≠ '/' := fun hc => h (hc ▸ List.mem_cons_self c rest)
    have hrest : '/' ∉ rest := fun hm => h (List.mem_cons_of_mem c hm)
    show splitSlash (c :: (rest ++ '/' :: l)) = (c :: rest) :: splitSlash l
    rw [splitSlash_cons, ih hrest]
    simp [hc]

theorem splitSlash_joinSlash {comps : List (List Char)} (hne : comps ≠ [])
    (h : ∀ g ∈ comps, '/' ∉ g) : splitSlash (joinSlash comps) = comps := by
  induction comps with
  | nil => exact absurd rfl hne
  | cons g gs ih =>
    cases gs with
    | nil =>
      show splitSlash (joinSlash [g]) = [g]
      rw [joinSlash]
      exact splitSlash_of_no_slash (h g (List.mem_cons_self g []))
    | cons g2 gs2 =>
      show splitSlash (g ++ '/' :: joinSlash (g2 :: gs2)) = g :: g2 :: gs2
      rw [splitSlash_append_slash (h g (List.mem_cons_self g (g2 :: gs2)))]
      rw [ih (by simp) (fun x hx => h x (List.mem_cons_of_mem g hx))]

theorem joinSlash_ne_nil {comps : List (List Char)} (hne : comps ≠ [])
    (h : ∀ g ∈ comps, g ≠ []) : joinSlash comps ≠ [] := by
  cases comps with
  | nil => exact absurd rfl hne
  | cons g gs =>
    cases gs with
    | nil => exact h g (List.mem_cons_self g [])
    | cons g2 gs2 =>
      show g ++ '/' :: joinSlash (g2 :: gs2) ≠ []
      simp

theorem joinSlash_head? {g : List Char} (gs : List (List Char)) (hg : g ≠ []) :
    (joinSlash (g :: gs)).head? = g.head? := by
  cases gs with
  | nil => rfl
  | cons g2 gs2 =>
    show (g ++ '/' :: joinSlash (g2 :: gs2)).head? = g.head?
    cases g with
    | nil => exact absurd rfl hg
    | cons c t => rfl

theorem joinSlash_getLast_ne_slash {comps : List (List Char)} :
    comps ≠ [] → (∀ g ∈ comps, g ≠ [] ∧ '/' ∉ g) →
    (joinSlash comps).getLast? ≠ some '/' := by
  induction comps with
  | nil => intro hne _; exact absurd rfl hne
  | cons g gs ih =>
    intro _ h
    cases gs with
    | nil =>
      show g.getLast? ≠ some '/'
      intro hlast
      have hmem : '/' ∈ g := by
        obtain ⟨hh, heq⟩ :=
          List.mem_getLast?_eq_getLast (l := g) (x := '/') hlast
        rw [heq]; exact List.getLast_mem hh
      exact (h g (List.mem_cons_self g [])).2 hmem
    | cons g2 gs2 =>
      show (g ++ '/' :: joinSlash (g2 :: gs2)).getLast? ≠ some '/'
      rw [List.getLast?_append_of_ne_nil g (by simp)]
      have hxne : joinSlash (g2 :: gs2) ≠ [] :=
        joinSlash_ne_nil (by simp)
          (fun x hx => (h x (List.mem_cons_of_mem g hx)).1)
      have h2 : ('/' :: joinSlash (g2 :: gs2)).getLast? =
          (joinSlash (g2 :: gs2)).getLast? := by
        show ((['/'] : List Char) ++ joinSlash (g2 :: gs2)).getLast? = _
        exact List.getLast?_append_of_ne_nil ['/'] hxne
      rw [h2]
      exact ih (by simp) (fun x hx => h x (List.mem_cons_of_mem g hx))

/-! ## hasDoubleSlash -/

theorem hasDoubleSlash_cons_cons (a b : Char) (rest : List Char) :
    hasDoubleSlash (a :: b :: rest) =
      ((a = '/' && b = '/') || hasDoubleSlash (b :: rest)) := rfl

theorem hasDoubleSlash_append {g l : List Char} (hg : '/' ∉ g)
    (hl : hasDoubleSlash l = false) : hasDoubleSlash (g ++ l) = false := by
  induction g with
  | nil => simpa
  | cons c rest ih =>
    have hc : c ≠ '/' := fun h => hg (h ▸ List.mem_cons_self c rest)
    have hrest : '/' ∉ rest := fun hm => hg (List.mem_cons_of_mem c hm)
    cases rest with
    | nil =>
      cases l with
      | nil => rfl
      | cons b t =>
        rw [List.singleton_append, hasDoubleSlash_cons_cons]
        simp [hc, hl]
    | cons c2 rest2 =>
      rw [List.cons_append, List.cons_append, hasDoubleSlash_cons_cons]
      have h2 := ih hrest
      rw [List.cons_append] at h2
      simp [hc, h2]

theorem hasDoubleSlash_slash_cons {l : List Char}
    (hl : hasDoubleSlash l = false) (hhead : l.head? ≠ some '/') :
    hasDoubleSlash ('/' :: l) = false := by
  cases l with
  | nil => rfl
  | cons b t =>
    have hb : b ≠ '/' := by
      intro h; exact hhead (by rw [h]; rfl)
    rw [hasDoubleSlash_cons_cons]
    simp [hb, hl]

theorem head?_ne_slash_of_safe {g : List Char} (hg : g ≠ [])
    (h : ∀ c ∈ g, unsafeChar c = false) : g.head? ≠ some '/' := by
  cases g with
  | nil => exact absurd rfl hg
  | cons c t =>
    intro hc
    have : c = '/' := by simpa using hc
    exact safe_ne_slash (h c (List.mem_cons_self c t)) this

theorem no_slash_of_all_safe {a : List Char}
    (h : ∀ c ∈ a, unsafeChar c = false) : '/' ∉ a := by
  intro hmem
  have h2 := h '/' hmem
  rw [unsafeChar_slash] at h2
  exact absurd h2 (by decide)

theorem hasDoubleSlash_joinSlash {comps : List (List Char)}
    (h : ∀ g ∈ comps, g ≠ [] ∧ '/' ∉ g) :
    hasDoubleSlash (joinSlash comps) = false := by
  induction comps with
  | nil => rfl
  | cons g gs ih =>
    cases gs with
    | nil =>
      show hasDoubleSlash g = false
      have h2 : hasDoubleSlash (g ++ []) = false :=
        hasDoubleSlash_append (h g (List.mem_cons_self g [])).2 rfl
      simpa using h2
    | cons g2 gs2 =>
      show hasDoubleSlash (g ++ '/' :: joinSlash (g2 :: gs2)) = false
      apply hasDoubleSlash_append (h g (List.mem_cons_self g (g2 :: gs2))).2
      have hg2 := h g2 (List.mem_cons_of_mem g (List.mem_cons_self g2 gs2))
      have hhead : (joinSlash (g2 :: gs2)).head? ≠ some '/' := by
        rw [joinSlash_head? gs2 hg2.1]
        intro hc
        cases g2 with
        | nil => exact hg2.1 rfl
        | cons c t =>
          have : c = '/' := by simpa using hc
          exact hg2.2 (this ▸ List.mem_cons_self c t)
      exact hasDoubleSlash_slash_cons
        (ih (fun x hx => h x (List.mem_cons_of_mem g hx))) hhead

/-! ## IsAbsL -/

theorem IsAbsL_nil : filepath.IsAbsL [] = false := rfl

theorem IsAbsL_cons (c : Char) (t : List Char) :
    filepath.IsAbsL (c :: t) = decide (c = '/') := rfl

theorem IsAbsL_eq_false_of_head {l : List Char} (h : l.head? ≠ some '/') :
    filepath.IsAbsL l = false := by
  cases l with
  | nil => rfl
  | cons c t =>
    rw [IsAbsL_cons]
    simp only [decide_eq_false_iff_not]
    intro hc; exact h (by rw [hc]; rfl)

/-! ## cleanStep case lemmas -/

theorem cleanStep_skip {rooted : Bool} {stack : List (List Char)}
    {c : List Char} (hc : c = [] ∨ c = ['.']) :
    filepath.cleanStep rooted stack c = stack := by
  unfold filepath.cleanStep
  rcases hc with h | h <;> subst h <;> simp

theorem cleanStep_push {rooted : Bool} {stack : List (List Char)}
    {c : List Char} (h1 : c ≠ []) (h2 : c ≠ ['.']) (h3 : c ≠ ['.', '.']) :
    filepath.cleanStep rooted stack c = c :: stack := by
  unfold filepath.cleanStep
  rw [if_neg (by simp [h1, h2]), if_neg (by simp [h3])]

theorem cleanStep_dotdot_rooted {stack : List (List Char)} :
    filepath.cleanStep true stack ['.', '.'] = stack.tail := by
  unfold filepath.cleanStep
  rw [if_neg (by decide), if_pos rfl, if_pos rfl]

theorem cleanStep_dotdot_nil :
    filepath.cleanStep false [] ['.', '.'] = [['.', '.']] := by
  unfold filepath.cleanStep
  rw [if_neg (by decide), if_pos rfl, if_neg (by decide)]

theorem cleanStep_dotdot_cons {top : List Char} {rest : List (List Char)} :
    filepath.cleanStep false (top :: rest) ['.', '.'] =
      if top = ['.', '.'] then ['.', '.'] :: top :: rest else rest := by
  unfold filepath.cleanStep
  rw [if_neg (by decide), if_pos rfl, if_neg (by decide)]

/-! ## The cleanStep stack invariant -/

theorem stackOK_nil (rooted : Bool) : stackOK rooted [] :=
  ⟨[], 0, by simp, by simp, fun _ => rfl⟩

theorem cleanStep_stackOK {rooted : Bool} {stack : List (List Char)}
    {c : List Char} (hc : ∀ ch ∈ c, unsafeChar ch = false)
    (h : stackOK rooted stack) :
    stackOK rooted (filepath.cleanStep rooted stack c) := by
  obtain ⟨norms, k, hstack, hnorms, hk⟩ := h
  by_cases h1 : c = [] ∨ c = ['.']
  · rw [cleanStep_skip h1]; exact ⟨norms, k, hstack, hnorms, hk⟩
  · push_neg at h1
    by_cases h2 : c = ['.', '.']
    · subst h2
      cases rooted with
      | true =>
        rw [cleanStep_dotdot_rooted]
        have hk0 : k = 0 := hk rfl
        subst hk0
        rw [List.replicate_zero, List.append_nil] at hstack
        rw [hstack]
        cases norms with
        | nil => exact stackOK_nil true
        | cons n ns =>
          exact ⟨ns, 0, by simp, fun x hx => hnorms x (List.mem_cons_of_mem n hx),
            fun _ => rfl⟩
      | false =>
        cases hnn : norms with
        | nil =>
          rw [hnn] at hstack
          simp only [List.nil_append] at hstack
          cases hkk : k with
          | zero =>
            rw [hkk] at hstack
            simp only [List.replicate_zero] at hstack
            subst hstack
            rw [cleanStep_dotdot_nil]
            exact ⟨[], 1, by simp, by simp, fun hcon => by simp at hcon⟩
          | succ k' =>
            rw [hkk] at hstack
            rw [List.replicate_succ] at hstack
            subst hstack
            rw [cleanStep_dotdot_cons, if_pos rfl]
            exact ⟨[], k' + 2, by simp [List.replicate_succ], by simp,
              fun hcon => by simp at hcon⟩
        | cons n ns =>
          rw [hnn] at hstack hnorms
          subst hstack
          rw [List.cons_append, cleanStep_dotdot_cons,
            if_neg (hnorms n (List.mem_cons_self n ns)).2.2.2]
          exact ⟨ns, k, rfl, fun x hx => hnorms x (List.mem_cons_of_mem n hx), hk⟩
    · rw [cleanStep_push h1.1 h1.2 h2]
      rw [hstack]
      exact ⟨c :: norms, k, by simp, by
        intro x hx
        rcases List.mem_cons.mp hx with h3 | h4
        · subst h3; exact ⟨h1.1, hc, h1.2, h2⟩
        · exact hnorms x h4, hk⟩

theorem foldl_cleanStep_stackOK {rooted : Bool} :
    ∀ (comps : List (List Char)),
      (∀ g ∈ comps, ∀ ch ∈ g, unsafeChar ch = false) →
      ∀ (stack : List (List Char)), stackOK rooted stack →
      stackOK rooted (comps.foldl (filepath.cleanStep rooted) stack) := by
  intro comps
  induction comps with
  | nil => intro _ stack h; exact h
  | cons g gs ih =>
    intro hc stack h
    rw [List.foldl_cons]
    exact ih (fun x hx => hc x (List.mem_cons_of_mem g hx))
      (filepath.cleanStep rooted stack g)
      (cleanStep_stackOK (hc g (List.mem_cons_self g gs)) h)

/-! ## Canonical folds: cleaning an already-clean component list -/

theorem foldl_cleanStep_dotdots (k : Nat) :
    ∀ (i : Nat),
      (List.replicate k ['.', '.']).foldl (filepath.cleanStep false)
        (List.replicate i ['.', '.']) = List.replicate (k + i) ['.', '.'] := by
  induction k with
  | zero => intro i; simp
  | succ k' ih =>
    intro i
    rw [List.replicate_succ, List.foldl_cons]
    have hstep : filepath.cleanStep false (List.replicate i ['.', '.']) ['.', '.'] =
        List.replicate (i + 1) ['.', '.'] := by
      cases i with
      | zero => simpa using cleanStep_dotdot_nil
      | succ i' =>
        rw [List.replicate_succ, cleanStep_dotdot_cons, if_pos rfl]
        simp [List.replicate_succ]
    rw [hstep, ih (i + 1)]
    congr 1
    omega

theorem foldl_cleanStep_norms {rooted : Bool} :
    ∀ (ns : List (List Char)),
      (∀ x ∈ ns, x ≠ [] ∧ x ≠ ['.'] ∧ x ≠ ['.', '.']) →
      ∀ (st : List (List Char)),
        ns.foldl (filepath.cleanStep rooted) st = ns.reverse ++ st := by
  intro ns
  induction ns with
  | nil => intro _ st; simp
  | cons x ns' ih =>
    intro h st
    rw [List.foldl_cons]
    have hx := h x (List.mem_cons_self x ns')
    rw [cleanStep_push hx.1 hx.2.1 hx.2.2]
    rw [ih (fun y hy => h y (List.mem_cons_of_mem x hy)) (x :: st)]
    simp

/-! ## cleanL on joined well-formed atoms -/

theorem cleanL_expand {l : List Char} (hne : l ≠ []) :
    filepath.cleanL l =
      (if filepath.IsAbsL l then
        '/' :: joinSlash
          (((splitSlash l).foldl (filepath.cleanStep (filepath.IsAbsL l)) []).reverse)
      else if joinSlash
          (((splitSlash l).foldl (filepath.cleanStep (filepath.IsAbsL l)) []).reverse) = []
        then ['.']
        else joinSlash
          (((splitSlash l).foldl (filepath.cleanStep (filepath.IsAbsL l)) []).reverse)) := by
  unfold filepath.cleanL
  rw [if_neg hne]

theorem head?_ne_slash_of_no_slash {g : List Char} (hg : g ≠ [])
    (h : '/' ∉ g) : g.head? ≠ some '/' := by
  cases g with
  | nil => exact absurd rfl hg
  | cons c t =>
    intro hc
    have hc' : c = '/' := by simpa using hc
    exact h (hc' ▸ List.mem_cons_self c t)

theorem joinSlash_head_ne_slash {comps : List (List Char)}
    (hne : comps ≠ []) (h : ∀ g ∈ comps, g ≠ [] ∧ '/' ∉ g) :
    (joinSlash comps).head? ≠ some '/' := by
  cases comps with
  | nil => exact absurd rfl hne
  | cons c0 cs =>
    rw [joinSlash_head? cs (h c0 (List.mem_cons_self c0 cs)).1]
    exact head?_ne_slash_of_no_slash (h c0 (List.mem_cons_self c0 cs)).1
      (h c0 (List.mem_cons_self c0 cs)).2

theorem mem_canon_props {k : Nat} {norms : List (List Char)}
    (hnorms : ∀ x ∈ norms, strictComp x) :
    ∀ g ∈ List.replicate k ['.', '.'] ++ norms, g ≠ [] ∧ '/' ∉ g := by
  intro g hg
  rcases List.mem_append.mp hg with h1 | h2
  · have hgdd : g = ['.', '.'] := List.eq_of_mem_replicate h1
    subst hgdd; exact ⟨by decide, by decide⟩
  · obtain ⟨hne2, hsafe, -, -⟩ := hnorms g h2
    exact ⟨hne2, no_slash_of_all_safe hsafe⟩

theorem cleanL_joinSlash_shape {atoms : List (List Char)} (hne : atoms ≠ [])
    (h : ∀ a ∈ atoms, a ≠ [] ∧ ∀ c ∈ a, unsafeChar c = false) :
    cleanedShape (filepath.cleanL (joinSlash atoms)) := by
  have hslashfree : ∀ a ∈ atoms, '/' ∉ a :=
    fun a ha => no_slash_of_all_safe (h a ha).2
  have hnonempty : ∀ a ∈ atoms, a ≠ [] := fun a ha => (h a ha).1
  have hjne : joinSlash atoms ≠ [] := joinSlash_ne_nil hne hnonempty
  have hroot : filepath.IsAbsL (joinSlash atoms) = false :=
    IsAbsL_eq_false_of_head
      (joinSlash_head_ne_slash hne (fun a ha => ⟨hnonempty a ha, hslashfree a ha⟩))
  rw [cleanL_expand hjne, hroot]
  simp only [Bool.false_eq_true, if_false]
  rw [splitSlash_joinSlash hne hslashfree]
  obtain ⟨norms, k, hstack, hnorms, -⟩ :=
    @foldl_cleanStep_stackOK false atoms
      (fun g hg => (h g hg).2) [] (stackOK_nil false)
  rw [hstack, List.reverse_append, List.reverse_replicate]
  by_cases hempty : (List.replicate k ['.', '.'] ++ norms.reverse : List (List Char)) = []
  · rw [hempty]
    have hj : joinSlash ([] : List (List Char)) = [] := rfl
    rw [if_pos hj]
    exact Or.inl rfl
  · have hprops : ∀ g ∈ List.replicate k ['.', '.'] ++ norms.reverse, g ≠ [] ∧ '/' ∉ g :=
      mem_canon_props (fun x hx => hnorms x (List.mem_reverse.mp hx))
    have hout : joinSlash (List.replicate k ['.', '.'] ++ norms.reverse) ≠ [] :=
      joinSlash_ne_nil hempty (fun g hg => (hprops g hg).1)
    rw [if_neg hout]
    exact Or.inr ⟨k, norms.reverse,
      fun x hx => hnorms x (List.mem_reverse.mp hx), hempty, rfl⟩

theorem cleanL_canon {k : Nat} {norms : List (List Char)}
    (hnorms : ∀ x ∈ norms, strictComp x)
    (hne : (List.replicate k ['.', '.'] ++ norms : List (List Char)) ≠ []) :
    filepath.cleanL (joinSlash (List.replicate k ['.', '.'] ++ norms)) =
      joinSlash (List.replicate k ['.', '.'] ++ norms) := by
  have hprops := mem_canon_props (k := k) hnorms
  have hslashfree : ∀ g ∈ List.replicate k ['.', '.'] ++ norms, '/' ∉ g :=
    fun g hg => (hprops g hg).2
  have hjne : joinSlash (List.replicate k ['.', '.'] ++ norms) ≠ [] :=
    joinSlash_ne_nil hne (fun g hg => (hprops g hg).1)
  have hroot : filepath.IsAbsL (joinSlash (List.replicate k ['.', '.'] ++ norms)) = false :=
    IsAbsL_eq_false_of_head (joinSlash_head_ne_slash hne hprops)
  rw [cleanL_expand hjne, hroot]
  simp only [Bool.false_eq_true, if_false]
  rw [splitSlash_joinSlash hne hslashfree]
  rw [List.foldl_append]
  have h1 : (List.replicate k ['.', '.']).foldl (filepath.cleanStep false) [] =
      List.replicate k ['.', '.'] := by
    have := foldl_cleanStep_dotdots k 0
    simpa using this
  rw [h1]
  have h2 : norms.foldl (filepath.cleanStep false) (List.replicate k ['.', '.']) =
      norms.reverse ++ List.replicate k ['.', '.'] :=
    foldl_cleanStep_norms norms
      (fun x hx => ⟨(hnorms x hx).1, (hnorms x hx).2.2.1, (hnorms x hx).2.2.2⟩)
      (List.replicate k ['.', '.'])
  rw [h2, List.reverse_append, List.reverse_reverse, List.reverse_replicate]
  rw [if_neg hjne]

theorem cleanL_rooted_canon {norms : List (List Char)}
    (hnorms : ∀ x ∈ norms, strictComp x) :
    filepath.cleanL ('/' :: joinSlash norms) = '/' :: joinSlash norms := by
  cases hnn : norms with
  | nil => decide
  | cons n ns =>
    rw [← hnn]
    have hne : norms ≠ [] := by rw [hnn]; simp
    have hprops : ∀ g ∈ norms, g ≠ [] ∧ '/' ∉ g := by
      intro g hg
      obtain ⟨hne2, hsafe, -, -⟩ := hnorms g hg
      exact ⟨hne2, no_slash_of_all_safe hsafe⟩
    have hlne : ('/' :: joinSlash norms : List Char) ≠ [] := by simp
    have hroot : filepath.IsAbsL ('/' :: joinSlash norms) = true := by
      rw [IsAbsL_cons]; simp
    rw [cleanL_expand hlne, hroot]
    simp only [if_true]
    have hsplit : splitSlash ('/' :: joinSlash norms) = [] :: norms := by
      rw [splitSlash_cons]
      rw [splitSlash_joinSlash hne (fun g hg => (hprops g hg).2)]
      cases norms with
      | nil => simp at hne
      | cons x xs => simp
    rw [hsplit]
    rw [List.foldl_cons]
    rw [cleanStep_skip (Or.inl rfl)]
    rw [foldl_cleanStep_norms norms
      (fun x hx => ⟨(hnorms x hx).1, (hnorms x hx).2.2.1, (hnorms x hx).2.2.2⟩) []]
    rw [List.append_nil, List.reverse_reverse]

/-! ## fjoin-level lemmas -/

theorem Filenamify_safe {e repl : List Char}
    (hrepl : repl.any unsafeChar = false) :
    filenamify.Filenamify e repl = .ok (sanitizeWith repl e) := by
  unfold filenamify.Filenamify
  rw [hrepl]
  rfl

theorem underscore_any : (['_'] : List Char).any unsafeChar = false := by decide

theorem sanitizeElems_cons {r e : List Char} {rest : List (List Char)} :
    fjoin.sanitizeElems r (e :: rest) =
      if e = [] then fjoin.sanitizeElems r rest
      else
        match filenamify.Filenamify e r with
        | .error err => .error err
        | .ok fixed =>
          match fjoin.sanitizeElems r rest with
          | .error err => .error err
          | .ok xs => .ok (fixed :: xs) := rfl

theorem sanitizeElems_cons_nil {r : List Char} {rest : List (List Char)} :
    fjoin.sanitizeElems r ([] :: rest) = fjoin.sanitizeElems r rest := by
  rw [sanitizeElems_cons, if_pos rfl]

theorem sanitizeElems_cons_ne {r e : List Char} {rest : List (List Char)}
    (he : e ≠ []) :
    fjoin.sanitizeElems r (e :: rest) =
      match filenamify.Filenamify e r with
      | .error err => .error err
      | .ok fixed =>
        match fjoin.sanitizeElems r rest with
        | .error err => .error err
        | .ok xs => .ok (fixed :: xs) := by
  rw [sanitizeElems_cons, if_neg he]

theorem sanitizeElems_ok (elems : List (List Char)) :
    ∃ xs, fjoin.sanitizeElems ['_'] elems = .ok xs ∧
      ∀ a ∈ xs, a ≠ [] ∧ ∀ c ∈ a, unsafeChar c = false := by
  induction elems with
  | nil => exact ⟨[], rfl, by simp⟩
  | cons e rest ih =>
    obtain ⟨xs, hxs, hgood⟩ := ih
    by_cases he : e = []
    · subst he
      rw [sanitizeElems_cons_nil]
      exact ⟨xs, hxs, hgood⟩
    · rw [sanitizeElems_cons_ne he, Filenamify_safe underscore_any, hxs]
      refine ⟨sanitizeWith ['_'] e :: xs, rfl, ?_⟩
      intro a ha
      rcases List.mem_cons.mp ha with h1 | h2
      · subst h1
        refine ⟨sanitizeWith_ne_nil (by simp) he, ?_⟩
        intro c hc
        rcases sanitizeWith_mem hc with h3 | h4
        · have : c = '_' := by simpa using h3
          subst this; exact underscore_safe
        · exact h4
      · exact hgood a h2

theorem sanitizeElems_id {elems : List (List Char)}
    (h : ∀ e ∈ elems, e ≠ [] ∧ ∀ c ∈ e, unsafeChar c = false) :
    fjoin.sanitizeElems ['_'] elems = .ok elems := by
  induction elems with
  | nil => rfl
  | cons e rest ih =>
    obtain ⟨hne, hsafe⟩ := h e (List.mem_cons_self e rest)
    rw [sanitizeElems_cons_ne hne, Filenamify_safe underscore_any,
      ih (fun x hx => h x (List.mem_cons_of_mem e hx))]
    rw [sanitizeWith_all_safe hsafe]

theorem buildNamified_nil {r : List Char} : fjoin.buildNamified r [] = .ok [] := rfl

theorem buildNamified_cons {r p : List Char} {rest : List (List Char)} :
    fjoin.buildNamified r (p :: rest) =
      if p = [] then fjoin.buildNamified r rest
      else
        match fjoin.sanitizeElems r (splitSlash (filepath.cleanL p)) with
        | .error err => .error err
        | .ok xs =>
          match fjoin.buildNamified r rest with
          | .error err => .error err
          | .ok ys => .ok (xs ++ ys) := rfl

theorem buildNamified_cons_nil {r : List Char} {rest : List (List Char)} :
    fjoin.buildNamified r ([] :: rest) = fjoin.buildNamified r rest := by
  rw [buildNamified_cons, if_pos rfl]

theorem buildNamified_cons_ne {r p : List Char} {rest : List (List Char)}
    (hp : p ≠ []) :
    fjoin.buildNamified r (p :: rest) =
      match fjoin.sanitizeElems r (splitSlash (filepath.cleanL p)) with
      | .error err => .error err
      | .ok xs =>
        match fjoin.buildNamified r rest with
        | .error err => .error err
        | .ok ys => .ok (xs ++ ys) := by
  rw [buildNamified_cons, if_neg hp]

theorem buildNamified_ok (parts : List (List Char)) :
    ∃ ns, fjoin.buildNamified ['_'] parts = .ok ns ∧
      ∀ a ∈ ns, a ≠ [] ∧ ∀ c ∈ a, unsafeChar c = false := by
  induction parts with
  | nil => exact ⟨[], rfl, by simp⟩
  | cons p rest ih =>
    obtain ⟨ns, hns, hgood⟩ := ih
    by_cases hp : p = []
    · subst hp
      rw [buildNamified_cons_nil]
      exact ⟨ns, hns, hgood⟩
    · obtain ⟨xs, hxs, hxgood⟩ :=
        sanitizeElems_ok (splitSlash (filepath.cleanL p))
      rw [buildNamified_cons_ne hp, hxs, hns]
      refine ⟨xs ++ ns, rfl, ?_⟩
      intro a ha
      rcases List.mem_append.mp ha with h1 | h2
      · exact hxgood a h1
      · exact hgood a h2

theorem buildNamified_skip {r : List Char} :
    ∀ (xs ys : List (List Char)),
      fjoin.buildNamified r (xs ++ [] :: ys) = fjoin.buildNamified r (xs ++ ys) := by
  intro xs
  induction xs with
  | nil => intro ys; rw [List.nil_append, List.nil_append, buildNamified_cons_nil]
  | cons p xs' ih =>
    intro ys
    by_cases hp : p = []
    · subst hp
      rw [List.cons_append, List.cons_append, buildNamified_cons_nil,
        buildNamified_cons_nil]
      exact ih ys
    · rw [List.cons_append, List.cons_append, buildNamified_cons_ne hp,
        buildNamified_cons_ne hp, ih ys]

/-! ## filepath.JoinL and fjoin.JoinL shape -/

theorem filepathJoinL_nil : filepath.JoinL [] = [] := rfl

theorem filepathJoinL_eq_of_ne {ns : List (List Char)}
    (h : ∀ a ∈ ns, a ≠ []) (hne : ns ≠ []) :
    filepath.JoinL ns = filepath.cleanL (joinSlash ns) := by
  cases ns with
  | nil => exact absurd rfl hne
  | cons a rest =>
    have ha : a ≠ [] := h a (List.mem_cons_self a rest)
    unfold filepath.JoinL
    have hdrop : (a :: rest).dropWhile (· = []) = a :: rest := by
      rw [List.dropWhile_cons, if_neg (by simpa using ha)]
    rw [hdrop]

theorem JoinL_shape (p0 : List Char) (rest : List (List Char)) :
    ∃ q, fjoin.JoinL ['_'] (p0 :: rest) =
        some ((if filepath.IsAbsL p0 then '/' :: q else q), none)
      ∧ (q = [] ∨ cleanedShape q) := by
  obtain ⟨ns, hns, hgood⟩ := buildNamified_ok (p0 :: rest)
  refine ⟨filepath.JoinL ns, ?_, ?_⟩
  · unfold fjoin.JoinL
    rw [hns]
  · cases ns with
    | nil => left; rfl
    | cons a as =>
      right
      rw [filepathJoinL_eq_of_ne (fun x hx => (hgood x hx).1) (by simp)]
      exact cleanL_joinSlash_shape (by simp) hgood

theorem shape_not_abs {q : List Char} (h : q = [] ∨ cleanedShape q) :
    filepath.IsAbsL q = false := by
  rcases h with rfl | h
  · rfl
  · rcases h with rfl | ⟨k, norms, hnorms, hne, rfl⟩
    · decide
    · exact IsAbsL_eq_false_of_head
        (joinSlash_head_ne_slash hne (mem_canon_props hnorms))

theorem JoinL_ok (p0 : List Char) (rest : List (List Char)) :
    ∃ out, fjoin.JoinL ['_'] (p0 :: rest) = some (out, none) := by
  obtain ⟨q, hq, -⟩ := JoinL_shape p0 rest
  exact ⟨if filepath.IsAbsL p0 then '/' :: q else q, hq⟩

theorem JoinL_abs {p0 : List Char} {rest : List (List Char)}
    {out : List Char} {e : Option String}
    (h : fjoin.JoinL ['_'] (p0 :: rest) = some (out, e)) :
    filepath.IsAbsL out = filepath.IsAbsL p0 := by
  obtain ⟨q, hq, hshape⟩ := JoinL_shape p0 rest
  rw [hq] at h
  have hout : out = if filepath.IsAbsL p0 then '/' :: q else q := by
    have := (Option.some_injective _ h).symm
    exact congrArg Prod.fst this
  cases habs : filepath.IsAbsL p0 with
  | true =>
    rw [hout, habs, if_pos rfl, IsAbsL_cons]
    simp
  | false =>
    rw [hout, habs, if_neg (by simp)]
    exact shape_not_abs hshape

theorem JoinL_error_empty {repl : List Char} {parts : List (List Char)}
    {out : List Char} {err : String}
    (h : fjoin.JoinL repl parts = some (out, some err)) : out = [] := by
  cases parts with
  | nil => exact absurd h (by simp [fjoin.JoinL])
  | cons p0 rest =>
    unfold fjoin.JoinL at h
    cases hb : fjoin.buildNamified repl (p0 :: rest) with
    | error e2 =>
      rw [hb] at h
      have := Option.some_injective _ h
      exact (congrArg Prod.fst this).symm
    | ok ns =>
      rw [hb] at h
      have := congrArg Prod.snd (Option.some_injective _ h)
      simp at this

/-! ## String-level bridge -/

theorem underscore_data : ("_" : String).data = ['_'] := rfl

theorem Join_inv {ps : List String} {path : String} {e : Option String}
    (h : fjoin.Join ps = some (path, e)) :
    fjoin.JoinL ['_'] (ps.map String.data) = some (path.data, e) := by
  unfold fjoin.Join fjoin.JoinWith at h
  rw [underscore_data] at h
  cases hj : fjoin.JoinL ['_'] (ps.map String.data) with
  | none => rw [hj] at h; simp at h
  | some pr =>
    rw [hj] at h
    have hpr : ((⟨pr.1⟩ : String), pr.2) = (path, e) := Option.some_injective _ h
    have h1 : (⟨pr.1⟩ : String) = path := congrArg Prod.fst hpr
    have h2 : pr.2 = e := congrArg Prod.snd hpr
    have h3 : pr.1 = path.data := by rw [← h1]
    rw [← h3, ← h2]

theorem Join_of_JoinL {ps : List String} {q : List Char} {e : Option String}
    (h : fjoin.JoinL ['_'] (ps.map String.data) = some (q, e)) :
    fjoin.Join ps = some ((⟨q⟩ : String), e) := by
  unfold fjoin.Join fjoin.JoinWith
  rw [underscore_data, h]
  rfl

theorem JoinL_cons (repl p0 : List Char) (rest : List (List Char)) :
    fjoin.JoinL repl (p0 :: rest) =
      some (match fjoin.buildNamified repl (p0 :: rest) with
        | .error err => ([], some err)
        | .ok namified =>
          (if filepath.IsAbsL p0 then '/' :: filepath.JoinL namified
           else filepath.JoinL namified, none)) := rfl

theorem JoinL_skip_empty {l1 l2 : List (List Char)}
    (h : l1 ≠ [] ∨ ∃ s t, l2 = s :: t ∧ filepath.IsAbsL s = false) :
    fjoin.JoinL ['_'] (l1 ++ [] :: l2) = fjoin.JoinL ['_'] (l1 ++ l2) := by
  cases l1 with
  | cons p l1' =>
    rw [List.cons_append, List.cons_append, JoinL_cons, JoinL_cons]
    have hb : fjoin.buildNamified ['_'] (p :: (l1' ++ [] :: l2)) =
        fjoin.buildNamified ['_'] (p :: (l1' ++ l2)) := by
      rw [← List.cons_append, ← List.cons_append]
      exact buildNamified_skip (p :: l1') l2
    rw [hb]
  | nil =>
    rcases h with h1 | ⟨s, t, rfl, habs⟩
    · exact absurd rfl h1
    · rw [List.nil_append, List.nil_append, JoinL_cons, JoinL_cons,
        buildNamified_cons_nil]
      rw [IsAbsL_nil, habs]

/-!
## Claims
-/

/-- C4 (code_bug): the claim says `Join` is explicitly guarded against
indexing the first element of an empty sequence and returns `("", nil)`;
the code instead evaluates `filepath.IsAbs(parts[0])` unconditionally, so
calling `Join` with an empty argument list panics with an index-out-of-range
runtime error (`none` in the model). -/
theorem claim_C4_empty_input_panics : fjoin.Join [] = none := rfl

/-- C10: with the fixed replacement string `"_"`, the per-atom sanitizer
never fails, so `Join` returns a nil error on every non-empty input
sequence; the error-propagation branch is unreachable. -/
theorem claim_C10_never_errors (parts : List String) (h : parts ≠ []) :
    ∃ p, fjoin.Join parts = some (p, none) := by
  cases parts with
  | nil => exact absurd rfl h
  | cons p0 rest =>
    obtain ⟨out, hout⟩ := JoinL_ok p0.data (rest.map String.data)
    refine ⟨⟨out⟩, Join_of_JoinL ?_⟩
    rw [List.map_cons]
    exact hout

/-- Witness for C10 at the concrete input `["a"]`. -/
theorem claim_C10_witness : ∃ p, fjoin.Join ["a"] = some (p, none) :=
  claim_C10_never_errors ["a"] (by simp)

/-- C8: whenever `Join` (stated for every replacement string, of which the
source's `"_"` is the instance) returns a non-nil sanitizer error, the
returned path string is empty: the error aborts the join with no output. -/
theorem claim_C8_error_gives_empty_path (repl : String) (parts : List String)
    (path : String) (err : String)
    (h : fjoin.JoinWith repl parts = some (path, some err)) : path = "" := by
  unfold fjoin.JoinWith at h
  cases hj : fjoin.JoinL repl.data (parts.map String.data) with
  | none => rw [hj] at h; simp at h
  | some pr =>
    rw [hj] at h
    have hpr : ((⟨pr.1⟩ : String), pr.2) = (path, some err) :=
      Option.some_injective _ h
    have h1 : (⟨pr.1⟩ : String) = path := congrArg Prod.fst hpr
    have h2 : pr.2 = some err := congrArg Prod.snd hpr
    have hj2 : fjoin.JoinL repl.data (parts.map String.data) =
        some (pr.1, some err) := by rw [hj, ← h2]
    have hempty : pr.1 = [] := JoinL_error_empty hj2
    rw [← h1, hempty]

/-- Witness for C8: with replacement `"<"` the sanitizer fails and the
returned path is empty. -/
theorem claim_C8_witness : ("" : String) = "" :=
  claim_C8_error_gives_empty_path "<" ["a"] ""
    "Replacement string cannot contain reserved filename characters"
    (by decide)

/-- C2: an atom consisting only of unsafe characters sanitizes to the single
replacement character rather than the empty string; in particular
`Join("<") = "_"` and `Join("<", ">", "/</") = "_/_/_"`. -/
theorem claim_C2_all_unsafe_atom :
    (∀ s : List Char, s ≠ [] → s.all unsafeChar = true →
      sanitizeWith ['_'] s = ['_'])
    ∧ fjoin.Join ["<"] = some ("_", none)
    ∧ fjoin.Join ["<", ">", "/</"] = some ("_/_/_", none) := by
  refine ⟨?_, by decide, by decide⟩
  intro s h1 h2
  unfold sanitizeWith
  rw [if_pos ⟨h1, by rw [h2]⟩]

/-- Witness for C2 at the concrete atom `"<"`. -/
theorem claim_C2_witness : sanitizeWith ['_'] ['<'] = ['_'] :=
  claim_C2_all_unsafe_atom.1 ['<'] (by simp) (by decide)

/-- C5: for every non-empty input, the result of `Join` begins with a path
separator iff the first input segment (before any cleaning) does; segments
after the first never affect absoluteness, e.g. `Join("a", "/<b") = "a/b"`. -/
theorem claim_C5_absoluteness_first_segment :
    (∀ (p0 : String) (rest : List String) (path : String) (e : Option String),
      fjoin.Join (p0 :: rest) = some (path, e) →
      filepath.IsAbsL path.data = filepath.IsAbsL p0.data)
    ∧ fjoin.Join ["a", "/<b"] = some ("a/b", none) := by
  refine ⟨?_, by decide⟩
  intro p0 rest path e h
  have h2 := Join_inv h
  rw [List.map_cons] at h2
  exact JoinL_abs h2

/-- Witness for C5 at the concrete input `["a", "/b"]`. -/
theorem claim_C5_witness :
    filepath.IsAbsL ("a/b" : String).data = filepath.IsAbsL ("a" : String).data :=
  claim_C5_absoluteness_first_segment.1 "a" ["/b"] "a/b" none (by decide)

/-- C6 fails on the code: absoluteness is captured from the literally first
segment, so an empty first segment makes the result relative even though
the first non-empty segment `"/a"` is absolute. -/
theorem claim_C6_counterexample :
    fjoin.Join ["", "/a"] = some ("a", none)
    ∧ filepath.IsAbsL ("/a" : String).data = true
    ∧ filepath.IsAbsL ("a" : String).data = false :=
  ⟨by decide, by decide, by decide⟩

/-- C6 (amended): for every input with at least one non-empty segment, the
output has a leading separator iff the *literally first* segment (even if
empty) is an absolute path. -/
theorem claim_C6_amended_absoluteness (p0 : String) (rest : List String)
    (path : String) (e : Option String)
    (hne : ∃ p ∈ p0 :: rest, p ≠ "")
    (h : fjoin.Join (p0 :: rest) = some (path, e)) :
    filepath.IsAbsL path.data = filepath.IsAbsL p0.data := by
  have h2 := Join_inv h
  rw [List.map_cons] at h2
  exact JoinL_abs h2

/-- Witness for the amended C6 at the concrete input `["/a", "b"]`. -/
theorem claim_C6_witness :
    filepath.IsAbsL ("/a/b" : String).data = filepath.IsAbsL ("/a" : String).data :=
  claim_C6_amended_absoluteness "/a" ["b"] "/a/b" none
    ⟨"/a", by simp, by decide⟩ (by decide)

/-- C7 fails on the code: inserting an empty segment *in front of* an
absolute segment changes the result (the absoluteness flag reads the
literally first segment). -/
theorem claim_C7_counterexample :
    fjoin.Join ["", "/a"] ≠ fjoin.Join ["/a"]
    ∧ fjoin.Join ["", "/a"] = some ("a", none)
    ∧ fjoin.Join ["/a"] = some ("/a", none) :=
  ⟨by decide, by decide, by decide⟩

/-- C7 (amended): inserting or removing an empty segment never changes the
result at any position after the first; at the very front it preserves the
result provided the remaining list is non-empty and its first segment is
not absolute (e.g. `Join("aA", "", "b") = Join("aA", "b") = "aA/b"`). -/
theorem claim_C7_amended_empty_elision (l1 l2 : List String)
    (h : l1 ≠ [] ∨ ∃ s t, l2 = s :: t ∧ filepath.IsAbsL s.data = false) :
    (fjoin.Join (l1 ++ "" :: l2) = fjoin.Join (l1 ++ l2))
    ∧ fjoin.Join ["aA", "", "b"] = some ("aA/b", none)
    ∧ fjoin.Join ["aA", "b"] = some ("aA/b", none) := by
  refine ⟨?_, by decide, by decide⟩
  unfold fjoin.Join fjoin.JoinWith
  rw [underscore_data]
  have hmap1 : (l1 ++ "" :: l2).map String.data =
      l1.map String.data ++ [] :: l2.map String.data := by
    rw [List.map_append, List.map_cons]
  have hmap2 : (l1 ++ l2).map String.data =
      l1.map String.data ++ l2.map String.data := by
    rw [List.map_append]
  rw [hmap1, hmap2]
  have hskip : fjoin.JoinL ['_'] (l1.map String.data ++ [] :: l2.map String.data) =
      fjoin.JoinL ['_'] (l1.map String.data ++ l2.map String.data) := by
    apply JoinL_skip_empty
    rcases h with h1 | ⟨s, t, rfl, habs⟩
    · left; simpa using h1
    · right; exact ⟨s.data, t.map String.data, by rw [List.map_cons], habs⟩
  rw [hskip]

/-- Witness for the amended C7 at the concrete input `["aA"] / ["b"]`. -/
theorem claim_C7_witness :
    fjoin.Join (["aA"] ++ "" :: ["b"]) = fjoin.Join (["aA"] ++ ["b"]) :=
  (claim_C7_amended_empty_elision ["aA"] ["b"] (Or.inl (by simp))).1

/-- C1: for every atom, each maximal contiguous run of unsafe characters
strictly inside the atom (safe characters on both sides) is replaced by the
single replacement character `'_'`, while such a run at the very start or
very end of the atom is removed entirely rather than replaced; in
particular `Join("a<b") = "a_b"`, `Join("a<<b") = "a_b"`,
`Join("<b") = "b"`, `Join("b>") = "b"`.  (Atoms consisting only of unsafe
characters are claim C2's case.) -/
theorem claim_C1_run_replacement (s u t : List Char) (hu : u ≠ [])
    (hall : ∀ x ∈ u, unsafeChar x = true)
    (hs : lastSafeB s = true) (ht : headSafeB t = true) :
    (sanitizeWith ['_'] (s ++ u ++ t)
        = sanitizeWith ['_'] s ++ '_' :: sanitizeWith ['_'] t)
    ∧ sanitizeWith ['_'] (u ++ t) = sanitizeWith ['_'] t
    ∧ sanitizeWith ['_'] (s ++ u) = sanitizeWith ['_'] s
    ∧ fjoin.Join ["a<b"] = some ("a_b", none)
    ∧ fjoin.Join ["a<<b"] = some ("a_b", none)
    ∧ fjoin.Join ["<b"] = some ("b", none)
    ∧ fjoin.Join ["b>"] = some ("b", none) := by
  refine ⟨?_, sanitizeWith_edge_lead hu hall ht,
    sanitizeWith_edge_trail hall hs, by decide, by decide, by decide, by decide⟩
  rw [sanitizeWith_interior hu hall hs ht, List.append_assoc]
  rfl

/-- Witness for C1 at the concrete atom `"a<b"`. -/
theorem claim_C1_witness :
    sanitizeWith ['_'] (['a'] ++ ['<'] ++ ['b'])
      = sanitizeWith ['_'] ['a'] ++ '_' :: sanitizeWith ['_'] ['b'] :=
  (claim_C1_run_replacement ['a'] ['<'] ['b'] (by simp) (by decide)
    (by decide) (by decide)).1

/-- C3: for every input on which `Join` succeeds, the output splits into
non-empty components of safe characters only (after an optional leading
separator), contains no doubled separator, and has no trailing separator
except for the degenerate root path `"/"`. -/
theorem claim_C3_result_guarantee (ps : List String) (path : String)
    (h : fjoin.Join ps = some (path, none)) :
    (∃ (isabs : Bool) (comps : List (List Char)),
        path.data = (if isabs then ['/'] else []) ++ joinSlash comps
        ∧ ∀ a ∈ comps, a ≠ [] ∧ ∀ c ∈ a, unsafeChar c = false)
    ∧ hasDoubleSlash path.data = false
    ∧ (path.data.getLast? = some '/' → path = "/") := by
  have h2 := Join_inv h
  cases ps with
  | nil => rw [List.map_nil] at h2; exact absurd h2 (by simp [fjoin.JoinL])
  | cons p0 rest =>
    rw [List.map_cons] at h2
    obtain ⟨q, hq, hshape⟩ := JoinL_shape p0.data (rest.map String.data)
    rw [hq] at h2
    have hpr := Option.some_injective _ h2
    have hpath : path.data = if filepath.IsAbsL p0.data then '/' :: q else q :=
      (congrArg Prod.fst hpr).symm
    obtain ⟨comps, hqc, hcgood⟩ :
        ∃ comps, q = joinSlash comps ∧
          ∀ a ∈ comps, a ≠ [] ∧ ∀ c ∈ a, unsafeChar c = false := by
      rcases hshape with rfl | hclean
      · exact ⟨[], rfl, by simp⟩
      · rcases hclean with rfl | ⟨k, norms, hnorms, hne, rfl⟩
        · refine ⟨[['.']], rfl, ?_⟩
          intro a ha
          have ha' : a = ['.'] := by simpa using ha
          subst ha'
          refine ⟨by simp, ?_⟩
          intro c hc
          have hc' : c = '.' := by simpa using hc
          subst hc'; exact dot_safe
        · refine ⟨List.replicate k ['.', '.'] ++ norms, rfl, ?_⟩
          intro a ha
          rcases List.mem_append.mp ha with h3 | h4
          · have ha' : a = ['.', '.'] := List.eq_of_mem_replicate h3
            subst ha'
            refine ⟨by simp, ?_⟩
            intro c hc
            have hc' : c = '.' := by
              rcases List.mem_cons.mp hc with h5 | h6
              · exact h5
              · simpa using h6
            subst hc'; exact dot_safe
          · obtain ⟨hne2, hsafe, -, -⟩ := hnorms a h4
            exact ⟨hne2, hsafe⟩
    subst hqc
    have hprops : ∀ g ∈ comps, g ≠ [] ∧ '/' ∉ g := fun g hg =>
      ⟨(hcgood g hg).1, no_slash_of_all_safe (hcgood g hg).2⟩
    refine ⟨⟨filepath.IsAbsL p0.data, comps, ?_, hcgood⟩, ?_, ?_⟩
    · rw [hpath]
      cases filepath.IsAbsL p0.data <;> rfl
    · rw [hpath]
      cases filepath.IsAbsL p0.data with
      | false =>
        show hasDoubleSlash ([] ++ joinSlash comps) = false
        rw [List.nil_append]
        exact hasDoubleSlash_joinSlash hprops
      | true =>
        show hasDoubleSlash ('/' :: joinSlash comps) = false
        cases hcomps : comps with
        | nil => rfl
        | cons c0 cs =>
          apply hasDoubleSlash_slash_cons
          · rw [← hcomps]; exact hasDoubleSlash_joinSlash hprops
          · rw [← hcomps]
            exact joinSlash_head_ne_slash (by rw [hcomps]; simp) hprops
    · intro hlast
      rw [hpath] at hlast
      cases hcomps : comps with
      | cons c0 cs =>
        exfalso
        rw [hcomps] at hlast hprops
        have hjne : joinSlash (c0 :: cs) ≠ [] :=
          joinSlash_ne_nil (by simp) (fun g hg => (hprops g hg).1)
        have hl2 : (joinSlash (c0 :: cs)).getLast? = some '/' := by
          cases habs : filepath.IsAbsL p0.data with
          | false => rw [habs] at hlast; simpa using hlast
          | true =>
            rw [habs, if_pos rfl] at hlast
            rw [show ('/' :: joinSlash (c0 :: cs) : List Char) =
              ['/'] ++ joinSlash (c0 :: cs) from rfl] at hlast
            rwa [List.getLast?_append_of_ne_nil ['/'] hjne] at hlast
        exact joinSlash_getLast_ne_slash (by simp) hprops hl2
      | nil =>
        rw [hcomps] at hlast hpath
        cases habs : filepath.IsAbsL p0.data with
        | false =>
          rw [habs] at hlast
          simp [joinSlash] at hlast
        | true =>
          rw [habs] at hpath
          apply String.ext
          rw [hpath]
          rfl

/-- Witness for C3 at the concrete input `["a"]`. -/
theorem claim_C3_witness :
    (∃ (isabs : Bool) (comps : List (List Char)),
        ("a" : String).data = (if isabs then ['/'] else []) ++ joinSlash comps
        ∧ ∀ a ∈ comps, a ≠ [] ∧ ∀ c ∈ a, unsafeChar c = false)
    ∧ hasDoubleSlash ("a" : String).data = false
    ∧ (("a" : String).data.getLast? = some '/' → ("a" : String) = "/") :=
  claim_C3_result_guarantee ["a"] "a" (by decide)

/-! ## Re-joining a cleaned output (for claim C9) -/

theorem joinSlash_dotdot_starts (Y : List (List Char)) :
    ∃ r2, joinSlash (['.', '.'] :: Y) = '.' :: '.' :: r2 := by
  cases Y with
  | nil => exact ⟨[], rfl⟩
  | cons y ys => exact ⟨'/' :: joinSlash (y :: ys), rfl⟩

theorem startsSlashDot_cons (X : List Char) :
    startsSlashDot ('/' :: '.' :: X) = true := rfl

theorem canon_all_safe {k : Nat} {norms : List (List Char)}
    (hnorms : ∀ x ∈ norms, strictComp x) :
    ∀ g ∈ List.replicate k ['.', '.'] ++ norms, ∀ c ∈ g, unsafeChar c = false := by
  intro g hg
  rcases List.mem_append.mp hg with h1 | h2
  · have hg' : g = ['.', '.'] := List.eq_of_mem_replicate h1
    subst hg'
    intro c hc
    have hc' : c = '.' := by
      rcases List.mem_cons.mp hc with h3 | h4
      · exact h3
      · simpa using h4
    subst hc'; exact dot_safe
  · exact (hnorms g h2).2.1

theorem JoinL_single_canon {k : Nat} {norms : List (List Char)}
    (hnorms : ∀ x ∈ norms, strictComp x)
    (hne : (List.replicate k ['.', '.'] ++ norms : List (List Char)) ≠ []) :
    fjoin.JoinL ['_'] [joinSlash (List.replicate k ['.', '.'] ++ norms)] =
      some (joinSlash (List.replicate k ['.', '.'] ++ norms), none) := by
  have hprops := mem_canon_props (k := k) hnorms
  have hsafe := canon_all_safe (k := k) hnorms
  have hq_ne : joinSlash (List.replicate k ['.', '.'] ++ norms) ≠ [] :=
    joinSlash_ne_nil hne (fun g hg => (hprops g hg).1)
  have hclean : filepath.cleanL (joinSlash (List.replicate k ['.', '.'] ++ norms)) =
      joinSlash (List.replicate k ['.', '.'] ++ norms) := cleanL_canon hnorms hne
  have hsplit : splitSlash (joinSlash (List.replicate k ['.', '.'] ++ norms)) =
      List.replicate k ['.', '.'] ++ norms :=
    splitSlash_joinSlash hne (fun g hg => (hprops g hg).2)
  have hbn : fjoin.buildNamified ['_'] [joinSlash (List.replicate k ['.', '.'] ++ norms)] =
      .ok (List.replicate k ['.', '.'] ++ norms) := by
    rw [buildNamified_cons_ne hq_ne, hclean, hsplit,
      sanitizeElems_id (fun e he => ⟨(hprops e he).1, hsafe e he⟩)]
    rw [buildNamified_nil]
    simp
  have habs : filepath.IsAbsL (joinSlash (List.replicate k ['.', '.'] ++ norms)) = false :=
    IsAbsL_eq_false_of_head (joinSlash_head_ne_slash hne hprops)
  have hfj : filepath.JoinL (List.replicate k ['.', '.'] ++ norms) =
      joinSlash (List.replicate k ['.', '.'] ++ norms) := by
    rw [filepathJoinL_eq_of_ne (fun g hg => (hprops g hg).1) hne, hclean]
  rw [JoinL_cons, hbn, habs]
  show some (filepath.JoinL (List.replicate k ['.', '.'] ++ norms), none) =
    some (joinSlash (List.replicate k ['.', '.'] ++ norms), none)
  rw [hfj]

theorem JoinL_single_rooted_canon {norms : List (List Char)}
    (hnorms : ∀ x ∈ norms, strictComp x) :
    fjoin.JoinL ['_'] ['/' :: joinSlash norms] =
      some ('/' :: joinSlash norms, none) := by
  cases hnn : norms with
  | nil => decide
  | cons n ns =>
    rw [← hnn]
    have hnne : norms ≠ [] := by rw [hnn]; simp
    have hprops : ∀ g ∈ norms, g ≠ [] ∧ '/' ∉ g := by
      intro g hg
      exact ⟨(hnorms g hg).1, no_slash_of_all_safe (hnorms g hg).2.1⟩
    have hclean : filepath.cleanL ('/' :: joinSlash norms) = '/' :: joinSlash norms :=
      cleanL_rooted_canon hnorms
    have hsplit : splitSlash ('/' :: joinSlash norms) = [] :: norms := by
      rw [splitSlash_cons, splitSlash_joinSlash hnne (fun g hg => (hprops g hg).2)]
      cases norms with
      | nil => simp at hnne
      | cons x xs => simp
    have hbn : fjoin.buildNamified ['_'] ['/' :: joinSlash norms] = .ok norms := by
      rw [buildNamified_cons_ne (by simp), hclean, hsplit, sanitizeElems_cons_nil,
        sanitizeElems_id (fun e he => ⟨(hprops e he).1, (hnorms e he).2.1⟩)]
      rw [buildNamified_nil]
      simp
    have habs : filepath.IsAbsL ('/' :: joinSlash norms) = true := by
      rw [IsAbsL_cons]; simp
    have hcleannorms : filepath.cleanL (joinSlash norms) = joinSlash norms := by
      have h0 := cleanL_canon (k := 0) hnorms (by
        simpa using hnne)
      simpa using h0
    have hfj : filepath.JoinL norms = joinSlash norms := by
      rw [filepathJoinL_eq_of_ne (fun g hg => (hprops g hg).1) hnne, hcleannorms]
    rw [JoinL_cons, hbn, habs]
    show some ('/' :: filepath.JoinL norms, none) = some ('/' :: joinSlash norms, none)
    rw [hfj]

/-- C9 fails on the code: the absolute path `"/.."` is a `Join` output
(`Join("/", "..")`), but re-joining it yields `"/"`, because the leading
separator is prepended after the final `Clean` and so `".."` is only
resolved on the second pass. -/
theorem claim_C9_counterexample :
    fjoin.Join ["/", ".."] = some ("/..", none)
    ∧ fjoin.Join ["/.."] = some ("/", none)
    ∧ ("/.." : String) ≠ "/" :=
  ⟨by decide, by decide, by decide⟩

/-- C9 (amended): for every input sequence on which `Join` succeeds with
output `p`, `Join([p])` succeeds; and whenever `p` does not begin with
`"/."` (i.e. the result is not an absolute path whose first component is
`"."` or `".."`), `Join([p])` returns `p` unchanged. -/
theorem claim_C9_amended_idempotent (ps : List String) (p : String)
    (h : fjoin.Join ps = some (p, none)) :
    (∃ p2, fjoin.Join [p] = some (p2, none))
    ∧ (startsSlashDot p.data = false → fjoin.Join [p] = some (p, none)) := by
  obtain ⟨pd⟩ := p
  have h2 := Join_inv h
  cases ps with
  | nil => rw [List.map_nil] at h2; exact absurd h2 (by simp [fjoin.JoinL])
  | cons p0 rest =>
    rw [List.map_cons] at h2
    obtain ⟨q, hq, hshape⟩ := JoinL_shape p0.data (rest.map String.data)
    rw [hq] at h2
    have hpr := Option.some_injective _ h2
    have hpd : pd = if filepath.IsAbsL p0.data then '/' :: q else q :=
      (congrArg Prod.fst hpr).symm
    constructor
    · obtain ⟨out, hout⟩ := JoinL_ok pd []
      exact ⟨⟨out⟩, Join_of_JoinL hout⟩
    · intro hsd
      apply @Join_of_JoinL [⟨pd⟩] pd none
      show fjoin.JoinL ['_'] [pd] = some (pd, none)
      cases habs : filepath.IsAbsL p0.data with
      | false =>
        rw [habs] at hpd
        simp only [Bool.false_eq_true, if_false] at hpd
        subst hpd
        rcases hshape with rfl | hclean
        · decide
        · rcases hclean with rfl | ⟨k, norms, hnorms, hne, rfl⟩
          · decide
          · exact JoinL_single_canon hnorms hne
      | true =>
        rw [habs, if_pos rfl] at hpd
        subst hpd
        rcases hshape with rfl | hclean
        · decide
        · rcases hclean with rfl | ⟨k, norms, hnorms, hne, rfl⟩
          · exact absurd hsd (by decide)
          · cases k with
            | succ k' =>
              exfalso
              obtain ⟨r2, hr2⟩ :=
                joinSlash_dotdot_starts (List.replicate k' ['.', '.'] ++ norms)
              rw [show (List.replicate (k' + 1) ['.', '.'] ++ norms :
                    List (List Char)) =
                  ['.', '.'] :: (List.replicate k' ['.', '.'] ++ norms) by
                  rw [List.replicate_succ, List.cons_append]] at hsd
              rw [hr2] at hsd
              rw [startsSlashDot_cons] at hsd
              exact absurd hsd (by simp)
            | zero =>
              have hz : (List.replicate 0 ['.', '.'] ++ norms :
                  List (List Char)) = norms := by simp
              rw [hz]
              exact JoinL_single_rooted_canon hnorms

/-- Witness for the amended C9 at the concrete output `"a/b"` of
`Join("a", "b")`. -/
theorem claim_C9_witness : fjoin.Join ["a/b"] = some ("a/b", none) :=
  (claim_C9_amended_idempotent ["a", "b"] "a/b" (by decide)).2 (by decide)
